import Mathlib

/-!
Verification of the streaming TTS pipeline (omar251/tts).

Shallow embedding of the pipeline components, translated from the Python
source:

* `src/src/text_processor.py`  — `TextProcessor.split_text_into_chunks`
* `src/src/audio_player.py`    — `AudioPlayer.display_synchronized_text` /
  `AudioPlayer.play_audio` polling loop
* `src/src/file_manager.py`    — `UnifiedFileManager` path creation, tracking
  and `cleanup_session_files`
* `src/src/translator.py`      — `Translator.translate_text` chunking and
  per-chunk fallback
* `src/src/main.py`            — `TTSApplication.talk` /
  `TTSApplication.play_audio_worker` producer/consumer pipeline
* `src/tts_endpoint.py`        — `tts_stream` paragraph loop
* `src/src/web_server.py`      — `stop_tts_streaming`
* `src/src/tts_service.py`     — `TTSService` attribute surface

Python strings are modelled as `List Char`, Python floats as `ℚ`, the file
system as a `Finset String` of existing paths.
-/

/-! ### Text segmenter (src/src/text_processor.py) -/

/-- Characters stripped by Python `str.strip()` for the ASCII range the
pipeline uses (space, tab, newline, carriage return, vertical tab, form
feed). -/
def isPySpace (c : Char) : Bool :=
  c == ' ' || c == '\t' || c == '\n' || c == '\r' || c == '\x0b' || c == '\x0c'

/-- Python `str.strip()`: drop leading and trailing whitespace. -/
def pyStrip (l : List Char) : List Char :=
  ((l.dropWhile isPySpace).reverse.dropWhile isPySpace).reverse

/-- Loop body of `TextProcessor.split_text_into_chunks` (text_processor.py
lines 9-17), with the loop state made explicit: `chunks` is the list built so
far and `current` is `current_chunk`.  Each character is appended to
`current`; when the character is in `special` (the configured
`settings.special_characters`) the accumulated chunk is stripped and closed.
After the loop a non-empty `current_chunk` is stripped and appended. -/
def splitLoop (special : List Char) :
    List (List Char) → List Char → List Char → List (List Char)
  | chunks, current, [] => if current = [] then chunks else chunks ++ [pyStrip current]
  | chunks, current, c :: rest =>
    if c ∈ special then splitLoop special (chunks ++ [pyStrip (current ++ [c])]) [] rest
    else splitLoop special chunks (current ++ [c]) rest

/-- Embedding of `TextProcessor.split_text_into_chunks` (text_processor.py
lines 7-19): run the loop from the empty chunk list and empty accumulator. -/
def split_text_into_chunks (special : List Char) (text : List Char) : List (List Char) :=
  splitLoop special [] [] text

/-- Structural restatement of the segmentation walk used to phrase the claim:
close the (stripped) accumulated unit whenever a boundary character is
appended, and turn a non-empty trailing accumulation into a final unit. -/
def segmentSpec (special : List Char) : List Char → List Char → List (List Char)
  | current, [] => if current = [] then [] else [pyStrip current]
  | current, c :: rest =>
    if c ∈ special then pyStrip (current ++ [c]) :: segmentSpec special [] rest
    else segmentSpec special (current ++ [c]) rest

theorem splitLoop_eq_append (special : List Char) :
    ∀ (text : List Char) (chunks : List (List Char)) (current : List Char),
      splitLoop special chunks current text = chunks ++ segmentSpec special current text := by
  intro text
  induction text with
  | nil =>
    intro chunks current
    by_cases h : current = [] <;> simp [splitLoop, segmentSpec, h]
  | cons c rest ih =>
    intro chunks current
    by_cases h : c ∈ special <;> simp [splitLoop, segmentSpec, h, ih]

/-- `s` is obtained from `t` by deleting whitespace characters only. -/
inductive DelWs : List Char → List Char → Prop
  | nil : DelWs [] []
  | keep (c : Char) {s t : List Char} : DelWs s t → DelWs (c :: s) (c :: t)
  | drop (c : Char) {s t : List Char} : isPySpace c = true → DelWs s t → DelWs s (c :: t)

theorem DelWs.refl (l : List Char) : DelWs l l := by
  induction l with
  | nil => exact DelWs.nil
  | cons c t ih => exact DelWs.keep c ih

theorem DelWs.append {s₁ t₁ s₂ t₂ : List Char} (h₁ : DelWs s₁ t₁) (h₂ : DelWs s₂ t₂) :
    DelWs (s₁ ++ s₂) (t₁ ++ t₂) := by
  induction h₁ with
  | nil => simpa using h₂
  | keep c h ih => exact DelWs.keep c ih
  | drop c hc h ih => exact DelWs.drop c hc ih

theorem DelWs.of_all_space {t : List Char} (h : ∀ c ∈ t, isPySpace c = true) :
    DelWs [] t := by
  induction t with
  | nil => exact DelWs.nil
  | cons c t ih =>
    exact DelWs.drop c (h c (by simp)) (ih fun d hd => h d (by simp [hd]))

theorem delWs_dropWhile (l : List Char) : DelWs (l.dropWhile isPySpace) l := by
  induction l with
  | nil => exact DelWs.nil
  | cons c t ih =>
    by_cases h : isPySpace c
    · simpa [List.dropWhile, h] using DelWs.drop c h ih
    · simp only [List.dropWhile, h]
      exact DelWs.keep c (DelWs.refl t)

theorem delWs_dropTrailing (l : List Char) :
    DelWs ((l.reverse.dropWhile isPySpace).reverse) l := by
  have hsplit : l = (l.reverse.dropWhile isPySpace).reverse
      ++ (l.reverse.takeWhile isPySpace).reverse := by
    conv_lhs => rw [← List.reverse_reverse l,
      ← List.takeWhile_append_dropWhile (p := isPySpace) (l := l.reverse)]
    rw [List.reverse_append]
  nth_rewrite 2 [hsplit]
  have hall : ∀ c ∈ (l.reverse.takeWhile isPySpace).reverse, isPySpace c = true := by
    intro c hc
    exact List.mem_takeWhile_imp (by simpa using hc)
  simpa using DelWs.append (DelWs.refl _) (DelWs.of_all_space hall)

theorem DelWs.trans {a b c : List Char} (h₁ : DelWs a b) (h₂ : DelWs b c) : DelWs a c := by
  induction h₂ generalizing a with
  | nil => exact h₁
  | keep c0 h ih =>
    cases h₁ with
    | keep _ h' => exact DelWs.keep c0 (ih h')
    | drop _ hc h' => exact DelWs.drop c0 hc (ih h')
  | drop c0 hc h ih => exact DelWs.drop c0 hc (ih h₁)

theorem pyStrip_delWs (l : List Char) : DelWs (pyStrip l) l :=
  DelWs.trans (delWs_dropTrailing (l.dropWhile isPySpace)) (delWs_dropWhile l)

theorem delWs_segmentSpec (special : List Char) :
    ∀ (text current : List Char),
      DelWs (segmentSpec special current text).flatten (current ++ text) := by
  intro text
  induction text with
  | nil =>
    intro current
    by_cases h : current = []
    · simp [segmentSpec, h, DelWs.nil]
    · simpa [segmentSpec, h] using pyStrip_delWs current
  | cons c rest ih =>
    intro current
    by_cases h : c ∈ special
    · have step : DelWs (pyStrip (current ++ [c]) ++ (segmentSpec special [] rest).flatten)
          ((current ++ [c]) ++ rest) :=
        DelWs.append (pyStrip_delWs (current ++ [c])) (by simpa using ih [])
      simpa [segmentSpec, h] using step
    · have step := ih (current ++ [c])
      simpa [segmentSpec, h] using step

/-- C7: for every boundary set and every input string, concatenating the
units produced by `split_text_into_chunks` (each unit retains the boundary
character it ended on) reproduces the original text up to deletion of
whitespace characters at unit edges, and the empty input yields the empty
sequence of units. -/
theorem C7_roundtrip_modulo_whitespace :
    (∀ (special text : List Char),
        DelWs (split_text_into_chunks special text).flatten text) ∧
    (∀ special : List Char, split_text_into_chunks special [] = []) := by
  constructor
  · intro special text
    have h := delWs_segmentSpec special text []
    simpa [split_text_into_chunks, splitLoop_eq_append] using h
  · intro special
    rfl

/-- C8: the segmenter walks the input once, closing the stripped accumulated
unit whenever a boundary character is appended and turning a non-empty
trailing accumulation into a final unit (`segmentSpec`), and on the input
"Hello world. Second sentence!" with boundary set {., !, ?} it produces
exactly the two units "Hello world." and "Second sentence!". -/
theorem C8_segmenter_walk_and_scenarioA :
    (∀ (special text : List Char),
        split_text_into_chunks special text = segmentSpec special [] text) ∧
    split_text_into_chunks ['.', '!', '?'] ("Hello world. Second sentence!".toList) =
      ["Hello world.".toList, "Second sentence!".toList] := by
  constructor
  · intro special text
    simpa [split_text_into_chunks] using splitLoop_eq_append special text [] []
  · rfl

/-! ### Playback synchronizer (src/src/audio_player.py)

`AudioPlayer.display_synchronized_text` iterates over the live list of word
boundaries `[word, start, duration]`; when `start <= elapsed < start +
duration` and `word` is non-empty it prints the word and blanks the word
field of the FIRST list entry equal to `[word, start, duration]`
(`word_boundaries.index(...)`).  `AudioPlayer.play_audio` calls it once per
polling tick with the current elapsed time.  Words are `List Char`, times are
`ℚ` (the code parses them with `float`; entries produced by
`load_word_boundaries` are always parseable, so the inner `try/except` never
fires).  A sidecar line such as ":0:1" parses to an entry whose word is the
empty string. -/

structure WB where
  word : List Char
  start : ℚ
  dur : ℚ
deriving DecidableEq

/-- Window test `start <= elapsed < start + duration` of audio_player.py
line 50. -/
def windowB (t : ℚ) (b : WB) : Bool :=
  decide (b.start ≤ t) && decide (t < b.start + b.dur)

/-- Full guard of audio_player.py line 50: the window test together with
`and word` (the word must still be non-empty). -/
def trigger (t : ℚ) (b : WB) : Bool :=
  windowB t b && !b.word.isEmpty

/-- Python `word_boundaries[word_boundaries.index([word, start, duration])][0]
= ""` (audio_player.py line 52): blank the word of the first entry equal to
`b`. -/
def blankFirst (b : WB) : List WB → List WB
  | [] => []
  | x :: xs => if x = b then { x with word := [] } :: xs else x :: blankFirst b xs

/-- One `for` pass of `display_synchronized_text` over the boundary list at
elapsed time `t`, with the already-visited part of the live list made
explicit as `pre`.  The Python loop blanks the first entry equal to the
current one; that first occurrence is inside `pre` when an equal entry is
there, and otherwise it is the current entry itself (entries after the
current position cannot be an earlier occurrence).  Returns the final list
and the printed words in order. -/
def passAux (t : ℚ) : List WB → List WB → List WB × List (List Char)
  | pre, [] => (pre, [])
  | pre, c :: rest =>
    if trigger t c then
      if c ∈ pre then
        let r := passAux t (blankFirst c pre ++ [c]) rest
        (r.1, c.word :: r.2)
      else
        let r := passAux t (pre ++ [{ c with word := [] }]) rest
        (r.1, c.word :: r.2)
    else
      let r := passAux t (pre ++ [c]) rest
      (r.1, r.2)

/-- Embedding of `AudioPlayer.display_synchronized_text` (audio_player.py
lines 43-52): one full pass at elapsed time `t`. -/
def display_synchronized_text (t : ℚ) (l : List WB) : List WB × List (List Char) :=
  passAux t [] l

/-- Embedding of the polling loop of `AudioPlayer.play_audio`
(audio_player.py lines 21-26): one `display_synchronized_text` pass per
sampled elapsed time, threading the live boundary list through. -/
def runDisplay : List WB → List ℚ → List WB × List (List Char)
  | l, [] => (l, [])
  | l, t :: ts =>
    let p := display_synchronized_text t l
    let r := runDisplay p.1 ts
    (r.1, p.2 ++ r.2)

/-- Result of one pass on a single entry: blanked when it triggered. -/
def blankIf (t : ℚ) (b : WB) : WB :=
  if trigger t b then { b with word := [] } else b

theorem trigger_blank (t : ℚ) (b : WB) : trigger t { b with word := ([] : List Char) } = false := by
  simp [trigger]

theorem passAux_spec (t : ℚ) :
    ∀ (suffix pre : List WB), (∀ b ∈ pre, trigger t b = false) →
      passAux t pre suffix =
        (pre ++ suffix.map (blankIf t), (suffix.filter (trigger t)).map WB.word) := by
  intro suffix
  induction suffix with
  | nil =>
    intro pre hpre
    simp [passAux]
  | cons c rest ih =>
    intro pre hpre
    by_cases hc : trigger t c
    · have hnotmem : c ∉ pre := by
        intro hmem
        simp [hpre c hmem] at hc
      have hblank : ∀ b ∈ pre ++ [{ c with word := ([] : List Char) }], trigger t b = false := by
        intro b hb
        rcases List.mem_append.mp hb with h1 | h2
        · exact hpre b h1
        · simp only [List.mem_singleton] at h2
          subst h2
          exact trigger_blank t c
      have hrec := ih (pre ++ [{ c with word := ([] : List Char) }]) hblank
      simp only [passAux, hc, if_true, if_neg hnotmem, hrec]
      simp [blankIf, hc, List.filter_cons]
    · have hkeep : ∀ b ∈ pre ++ [c], trigger t b = false := by
        intro b hb
        rcases List.mem_append.mp hb with h1 | h2
        · exact hpre b h1
        · simp only [List.mem_singleton] at h2
          subst h2
          simpa using hc
      have hrec := ih (pre ++ [c]) hkeep
      simp only [passAux, hc, if_false, hrec]
      simp [blankIf, hc, List.filter_cons]

theorem display_synchronized_text_spec (t : ℚ) (l : List WB) :
    display_synchronized_text t l =
      (l.map (blankIf t), (l.filter (trigger t)).map WB.word) := by
  simpa [display_synchronized_text] using passAux_spec t l [] (by simp)

theorem count_map_word_filter (w : List Char) (p : WB → Bool) :
    ∀ l : List WB, ((l.filter p).map WB.word).count w =
      (l.filter (fun b => p b && b.word == w)).length := by
  intro l
  induction l with
  | nil => rfl
  | cons b l ih =>
    by_cases hp : p b
    · by_cases hbw : b.word == w <;>
        simp [List.filter_cons, hp, hbw, List.count_cons, ih]
    · simp [List.filter_cons, hp, ih]

theorem filter_split_count {α : Type} (f : α → α) (P Q R : α → Bool)
    (h : ∀ b, (if P b then 1 else 0) + (if Q (f b) then 1 else 0) = if R b then (1 : ℕ) else 0) :
    ∀ l : List α, (l.filter P).length + ((l.map f).filter Q).length = (l.filter R).length := by
  intro l
  induction l with
  | nil => simp
  | cons b l ih =>
    have hb := h b
    by_cases hP : P b <;> by_cases hQ : Q (f b) <;> by_cases hR : R b <;>
      simp_all [List.filter_cons] <;> omega

theorem runDisplay_count (w : List Char) (hw : w ≠ []) :
    ∀ (ts : List ℚ) (l : List WB),
      ((runDisplay l ts).2.count w) =
        (l.filter (fun b => b.word == w && ts.any (fun t => windowB t b))).length := by
  intro ts
  induction ts with
  | nil =>
    intro l
    simp [runDisplay]
  | cons t ts ih =>
    intro l
    have hpoint : ∀ b : WB,
        (if (fun b => trigger t b && b.word == w) b then 1 else 0) +
          (if (fun b => b.word == w && ts.any (fun u => windowB u b)) (blankIf t b) then 1 else 0) =
        if (fun b => b.word == w && (t :: ts).any (fun u => windowB u b)) b then (1 : ℕ) else 0 := by
      intro b
      by_cases hbw : b.word = w
      · have hne : b.word.isEmpty = false := by
          subst hbw
          cases h : b.word with
          | nil => exact absurd h hw
          | cons x xs => simp
        by_cases hwin : windowB t b
        · simp [trigger, blankIf, hbw, hne, hwin, hw]
        · simp [trigger, blankIf, hbw, hne, hwin]
      · have hbw2 : (b.word == w) = false := by
          simpa using hbw
        by_cases htr : trigger t b
        · have hnilw : ((([] : List Char)) == w) = false := by
            cases w with
            | nil => exact absurd rfl hw
            | cons a as => rfl
          simp [hbw2, blankIf, htr, hnilw]
        · have hkeep : blankIf t b = b := by simp [blankIf, htr]
          simp [hbw2, hkeep]
    have hsplit := filter_split_count (blankIf t)
      (fun b => trigger t b && b.word == w)
      (fun b => b.word == w && ts.any (fun u => windowB u b))
      (fun b => b.word == w && (t :: ts).any (fun u => windowB u b))
      hpoint l
    have hpass := display_synchronized_text_spec t l
    calc (runDisplay l (t :: ts)).2.count w
        = ((display_synchronized_text t l).2 ++
            (runDisplay (display_synchronized_text t l).1 ts).2).count w := by
          rw [runDisplay]
    _ = ((l.filter (trigger t)).map WB.word).count w +
          ((runDisplay (l.map (blankIf t)) ts).2).count w := by
          rw [hpass, List.count_append]
    _ = (l.filter (fun b => trigger t b && b.word == w)).length +
          ((l.map (blankIf t)).filter
            (fun b => b.word == w && ts.any (fun u => windowB u b))).length := by
          rw [count_map_word_filter w (trigger t) l, ih (l.map (blankIf t))]
    _ = (l.filter (fun b => b.word == w && (t :: ts).any (fun u => windowB u b))).length :=
          hsplit

/-- C4 (amended): for every boundary list, every monotone sequence of
elapsed-time samples and every non-empty word `w`, the number of times the
polling loop reveals `w` equals the number of boundaries carrying word `w`
whose window contains at least one sample — each such boundary is revealed
exactly once (when a sample first falls in its window) and never a second
time, independent of the polling interval.  Boundaries whose parsed word is
empty are never revealed. -/
theorem C4_at_most_once_display (l : List WB) (ts : List ℚ)
    (hmono : List.Chain' (· ≤ ·) ts) (w : List Char) (hw : w ≠ []) :
    (runDisplay l ts).2.count w =
      (l.filter (fun b => b.word == w && ts.any (fun t => windowB t b))).length :=
  runDisplay_count w hw ts l

theorem C4_at_most_once_display_witness :
    List.Chain' (· ≤ ·) [(0 : ℚ), 1] ∧ (['h'] : List Char) ≠ [] ∧
      (runDisplay [⟨['h'], 0, 2⟩, ⟨['y'], 5, 1⟩] [(0 : ℚ), 1]).2.count ['h'] =
        ([⟨['h'], 0, 2⟩, ⟨['y'], 5, 1⟩].filter
          (fun b => b.word == ['h'] && [(0 : ℚ), 1].any (fun t => windowB t b))).length :=
  ⟨by norm_num [List.chain'_cons], by decide,
    C4_at_most_once_display [⟨['h'], 0, 2⟩, ⟨['y'], 5, 1⟩] [(0 : ℚ), 1]
      (by norm_num [List.chain'_cons]) ['h'] (by decide)⟩

/-- C4 counterexample: the boundary parsed from the sidecar line ":0:1" has
an empty word; the sample 0 falls in its window [0, 1) and the sample stream
is monotone, yet the loop reveals nothing — the claim's "each boundary's
word is revealed exactly once when some sample falls in its window" fails
for it. -/
theorem C4_counterexample :
    ((0 : ℚ) ≤ 0 ∧ (0 : ℚ) < 0 + 1) ∧
      List.Chain' (· ≤ ·) [(0 : ℚ)] ∧
      (runDisplay [⟨[], 0, 1⟩] [(0 : ℚ)]).2.length = 0 := by
  refine ⟨⟨by norm_num, by norm_num⟩, by simp, ?_⟩
  simp [runDisplay, display_synchronized_text_spec, trigger]

/-! ### Session file store (src/src/file_manager.py)

`UnifiedFileManager.cleanup_session_files` (lines 179-229) walks
`self.created_files` (a list that the method never clears), unlinking each
path that still exists on disk and counting the removals; `OSError` from a
single unlink is caught and skipped.  The trailing directory removals (lines
203-222) only delete EMPTY directories, never files, and never touch the
removal count, so the file system is modelled as the `Finset String` of
existing file paths. -/

/-- Embedding of the file-removal loop of `cleanup_session_files`
(file_manager.py lines 194-201): for each tracked path in order, if it
exists it is unlinked and counted.  Returns the resulting file system and
the count of files removed.  `created_files` is NOT mutated by the Python
method, which is why the same tracked list is passed to every call. -/
def cleanupFiles : List String → Finset String → Finset String × ℕ
  | [], fs => (fs, 0)
  | p :: rest, fs =>
    if p ∈ fs then
      let r := cleanupFiles rest (fs.erase p)
      (r.1, r.2 + 1)
    else cleanupFiles rest fs

theorem cleanupFiles_fst : ∀ (tracked : List String) (fs : Finset String),
    (cleanupFiles tracked fs).1 = fs \ tracked.toFinset := by
  intro tracked
  induction tracked with
  | nil =>
    intro fs
    simp [cleanupFiles]
  | cons p rest ih =>
    intro fs
    by_cases h : p ∈ fs
    · simp only [cleanupFiles, h, if_true]
      rw [ih]
      ext x
      simp only [Finset.mem_sdiff, Finset.mem_erase, List.toFinset_cons, Finset.mem_insert,
        List.mem_toFinset]
      constructor
      · rintro ⟨⟨hxp, hxf⟩, hxr⟩
        exact ⟨hxf, by
          rintro (rfl | hx)
          · exact hxp rfl
          · exact hxr hx⟩
      · rintro ⟨hxf, hxpr⟩
        exact ⟨⟨fun hxp => hxpr (Or.inl hxp), hxf⟩, fun hx => hxpr (Or.inr hx)⟩
    · simp only [cleanupFiles, h, if_false]
      rw [ih]
      ext x
      simp only [Finset.mem_sdiff, List.toFinset_cons, Finset.mem_insert, List.mem_toFinset]
      constructor
      · rintro ⟨hxf, hxr⟩
        exact ⟨hxf, by
          rintro (rfl | hx)
          · exact h hxf
          · exact hxr hx⟩
      · rintro ⟨hxf, hxpr⟩
        exact ⟨hxf, fun hx => hxpr (Or.inr hx)⟩

theorem cleanupFiles_of_disjoint : ∀ (tracked : List String) (fs : Finset String),
    (∀ p ∈ tracked, p ∉ fs) → cleanupFiles tracked fs = (fs, 0) := by
  intro tracked
  induction tracked with
  | nil =>
    intro fs _
    rfl
  | cons p rest ih =>
    intro fs h
    have hp : p ∉ fs := h p (by simp)
    simp only [cleanupFiles, hp, if_false]
    exact ih fs fun q hq => h q (by simp [hq])

theorem cleanupFiles_count : ∀ (tracked : List String) (fs : Finset String),
    (cleanupFiles tracked fs).2 = (fs ∩ tracked.toFinset).card := by
  intro tracked
  induction tracked with
  | nil =>
    intro fs
    simp [cleanupFiles]
  | cons p rest ih =>
    intro fs
    by_cases h : p ∈ fs
    · have hset : fs ∩ (p :: rest).toFinset = insert p (fs.erase p ∩ rest.toFinset) := by
        ext x
        simp only [Finset.mem_inter, List.toFinset_cons, Finset.mem_insert, List.mem_toFinset,
          Finset.mem_erase]
        constructor
        · rintro ⟨hxf, rfl | hx⟩
          · exact Or.inl rfl
          · by_cases hxp : x = p
            · exact Or.inl hxp
            · exact Or.inr ⟨⟨hxp, hxf⟩, hx⟩
        · rintro (rfl | ⟨⟨hxp, hxf⟩, hx⟩)
          · exact ⟨h, Or.inl rfl⟩
          · exact ⟨hxf, Or.inr hx⟩
      have hnot : p ∉ fs.erase p ∩ rest.toFinset := by
        simp [Finset.mem_inter, Finset.mem_erase]
      simp only [cleanupFiles, h, if_true]
      rw [ih, hset, Finset.card_insert_of_not_mem hnot]
    · have hset : fs ∩ (p :: rest).toFinset = fs ∩ rest.toFinset := by
        ext x
        simp only [Finset.mem_inter, List.toFinset_cons, Finset.mem_insert, List.mem_toFinset]
        constructor
        · rintro ⟨hxf, rfl | hx⟩
          · exact absurd hxf h
          · exact ⟨hxf, hx⟩
        · rintro ⟨hxf, hx⟩
          exact ⟨hxf, Or.inr hx⟩
      simp only [cleanupFiles, h, if_false]
      rw [ih, hset]

/-- C5: session cleanup is idempotent and total.  A second call on the file
system left by the first call removes nothing (reports 0 and leaves the file
system unchanged, and being a total function it cannot raise); each call
deletes only paths that are tracked and still exist, and the removal count
equals the number of distinct tracked paths that existed — each tracked
path is removed at most once even when tracked repeatedly. -/
theorem C5_cleanup_idempotent (tracked : List String) (fs : Finset String) :
    cleanupFiles tracked (cleanupFiles tracked fs).1 = ((cleanupFiles tracked fs).1, 0) ∧
    (cleanupFiles tracked fs).1 ⊆ fs ∧
    (∀ p ∈ fs, p ∉ (cleanupFiles tracked fs).1 → p ∈ tracked) ∧
    (cleanupFiles tracked fs).2 = (fs ∩ tracked.toFinset).card := by
  refine ⟨?_, ?_, ?_, cleanupFiles_count tracked fs⟩
  · apply cleanupFiles_of_disjoint
    intro p hp
    rw [cleanupFiles_fst]
    simp only [Finset.mem_sdiff, List.mem_toFinset, not_and, not_not]
    intro _
    exact hp
  · rw [cleanupFiles_fst]
    exact Finset.sdiff_subset
  · intro p hpf hpres
    rw [cleanupFiles_fst] at hpres
    simp only [Finset.mem_sdiff, List.mem_toFinset, not_and, not_not] at hpres
    exact hpres hpf

/-! ### Artifact path creation and tracking (file_manager.py and main.py)

`UnifiedFileManager.create_audio_file_path` (lines 89-125) and
`create_translation_file_path` (lines 127-145) build timestamped paths and
append them to `self.created_files`.  `TTSApplication.run` (main.py lines
101-124) tracks one translation file and ONE base audio/text pair
("cli_output"), strips the ".wav" extension from the base audio path, and
`TTSApplication.talk` (lines 60-64) then derives the per-chunk files
written by `generate_tts` as plain formatted strings
`{output_file}_{i}.wav` / `{output_file}_{i}.txt`, which never pass through
the file manager.  Timestamps are parameters of the model. -/

structure FMState where
  audio_dir : String
  text_dir : String
  translation_dir : String
  created_files : List String

/-- Python `f"{chunk_id:06d}"`. -/
def pad6 (n : ℕ) : String :=
  let s := toString n
  String.mk (List.replicate (6 - s.length) '0') ++ s

/-- Embedding of `UnifiedFileManager.create_audio_file_path` (file_manager.py
lines 89-125): build the `.wav`/`.txt` pair from the prefix, timestamp and
optional chunk id, and track both paths in `created_files`. -/
def create_audio_file_path (st : FMState) (pfx ts : String) (chunk_id : Option ℕ) :
    (String × String) × FMState :=
  let base_name := match chunk_id with
    | some cid => pfx ++ "_" ++ ts ++ "_chunk_" ++ pad6 cid
    | none => pfx ++ "_" ++ ts
  let audio_file := st.audio_dir ++ "/" ++ base_name ++ ".wav"
  let text_file := st.text_dir ++ "/" ++ base_name ++ ".txt"
  ((audio_file, text_file),
    { st with created_files := st.created_files ++ [audio_file, text_file] })

/-- Embedding of `UnifiedFileManager.create_translation_file_path`
(file_manager.py lines 127-145). -/
def create_translation_file_path (st : FMState) (src tgt ts : String) :
    String × FMState :=
  let translation_file :=
    st.translation_dir ++ "/" ++ "translation_" ++ src ++ "_to_" ++ tgt ++ "_" ++ ts ++ ".txt"
  (translation_file, { st with created_files := st.created_files ++ [translation_file] })

/-- Python `base_audio_file.replace(".wav", "")` (main.py line 122): for the
names produced by `create_audio_file_path` with an alphanumeric prefix and
timestamp there is exactly one occurrence of ".wav", at the end. -/
def stripWavSuffix (s : String) : String :=
  if s.data.reverse.take 4 = ['v', 'a', 'w', '.'] then
    String.mk (s.data.reverse.drop 4).reverse
  else s

/-- Per-chunk artifact files written during `TTSApplication.talk` (main.py
lines 60-64): `f"{output_file}_{i}.wav"` and `f"{output_file}_{i}.txt"` for
each chunk index. -/
def talkChunkFiles (output_file : String) (n : ℕ) : List String :=
  ((List.range n).map fun i =>
    [output_file ++ "_" ++ toString i ++ ".wav",
     output_file ++ "_" ++ toString i ++ ".txt"]).flatten

/-- File-path side of one CLI pipeline run (`TTSApplication.run`, main.py
lines 101-124) with `n` chunks, all synthesized successfully: first
component is the list of artifact files actually written during the run
(the translation file plus the per-chunk audio/text files), second is the
manager's `created_files` tracking list at the end of the run. -/
def runFileModel (ts1 ts2 : String) (n : ℕ) : List String × List String :=
  let st0 : FMState :=
    ⟨"temp/session/audio", "temp/session/text", "temp/session/translation", []⟩
  let r1 := create_translation_file_path st0 "auto" "auto" ts1
  let r2 := create_audio_file_path r1.2 "cli_output" ts2 none
  let output_file := stripWavSuffix r2.1.1
  (r1.1 :: talkChunkFiles output_file n, r2.2.created_files)

/-- C6 evaluated at a failing input: in a run with one chunk, the chunk's
audio artifact `temp/session/audio/cli_output_t2_0.wav` is written by the
run but absent from the session's tracking list (which holds only the never
written base pair and the translation file), so cleanup cannot account for
it.  This contradicts the claim that every artifact path created during a
run is recorded in the session's tracked set. -/
theorem C6_untracked_chunk_artifact :
    "temp/session/audio/cli_output_t2_0.wav" ∈ (runFileModel "t1" "t2" 1).1 ∧
    "temp/session/audio/cli_output_t2_0.wav" ∉ (runFileModel "t1" "t2" 1).2 ∧
    (runFileModel "t1" "t2" 1).2 =
      ["temp/session/translation/translation_auto_to_auto_t1.txt",
       "temp/session/audio/cli_output_t2.wav",
       "temp/session/text/cli_output_t2.txt"] := by
  refine ⟨?_, ?_, ?_⟩ <;> decide

/-! ### Ordered delivery pipeline (src/src/main.py)

`TTSApplication.talk` (lines 52-68) awaits `process_chunk` for each chunk in
index order; `process_chunk` (lines 32-37) awaits `generate_tts` and, ONLY
when it returned a file (`if tts_file:`), puts the result on the FIFO
`asyncio.Queue`.  `generate_tts` (tts_generator.py lines 43-46) catches any
provider error and returns `(None, None)`.  `play_audio_worker` (lines
39-50) consumes the queue front-to-back.  The synthesis outcome of chunk
`i` is abstracted as an oracle `gen i` (true = a file was produced); the
interleaving of producer and consumer coroutine steps is an arbitrary
boolean schedule, which subsumes every order in which synthesis completions
and playback can interleave. -/

/-- Indices enqueued by the talk loop for chunks `i, i+1, ..., i+k-1`:
chunk `j` is enqueued exactly when `gen j` holds, in index order. -/
def talkEnqueues (gen : ℕ → Bool) : ℕ → ℕ → List ℕ
  | _, 0 => []
  | i, k + 1 => (if gen i then [i] else []) ++ talkEnqueues gen (i + 1) k

structure PipeState where
  next : ℕ
  queue : List ℕ
  played : List ℕ
deriving DecidableEq

def initState : PipeState := ⟨0, [], []⟩

/-- One step of the talk loop (main.py lines 60-64 plus process_chunk lines
32-37): synthesize the next chunk and enqueue its index when synthesis
produced a file. -/
def producerStep (n : ℕ) (gen : ℕ → Bool) (s : PipeState) : PipeState :=
  if s.next < n then
    { s with next := s.next + 1,
             queue := if gen s.next then s.queue ++ [s.next] else s.queue }
  else s

/-- One step of `play_audio_worker` (main.py lines 39-50): consume the front
of the FIFO queue, if any. -/
def consumerStep (s : PipeState) : PipeState :=
  match s.queue with
  | [] => s
  | q :: rest => { s with queue := rest, played := s.played ++ [q] }

/-- Run the pipeline under an arbitrary interleaving of producer (true) and
consumer (false) steps. -/
def runSched (n : ℕ) (gen : ℕ → Bool) : List Bool → PipeState → PipeState
  | [], s => s
  | b :: bs, s => runSched n gen bs (if b then producerStep n gen s else consumerStep s)

theorem talkEnqueues_split (gen : ℕ → Bool) :
    ∀ (a b i : ℕ),
      talkEnqueues gen i (a + b) = talkEnqueues gen i a ++ talkEnqueues gen (i + a) b := by
  intro a
  induction a with
  | zero =>
    intro b i
    simp [talkEnqueues]
  | succ a ih =>
    intro b i
    have harith : a + 1 + b = (a + b) + 1 := by omega
    have hidx : i + 1 + a = i + (a + 1) := by omega
    have h1 : talkEnqueues gen i (a + 1 + b) =
        (if gen i then [i] else []) ++ talkEnqueues gen (i + 1) (a + b) := by
      rw [harith]
      rfl
    rw [h1, ih b (i + 1), hidx]
    simp [talkEnqueues, List.append_assoc]

theorem mem_talkEnqueues (gen : ℕ → Bool) :
    ∀ (k i m : ℕ), m ∈ talkEnqueues gen i k ↔ (i ≤ m ∧ m < i + k ∧ gen m = true) := by
  intro k
  induction k with
  | zero =>
    intro i m
    simp [talkEnqueues]
    omega
  | succ k ih =>
    intro i m
    constructor
    · intro hm
      have hm2 : (gen i = true ∧ m = i) ∨ m ∈ talkEnqueues gen (i + 1) k := by
        simpa [talkEnqueues] using hm
      rcases hm2 with ⟨hg, rfl⟩ | h2
      · exact ⟨le_refl m, by omega, hg⟩
      · have := (ih (i + 1) m).mp h2
        exact ⟨by omega, by omega, this.2.2⟩
    · rintro ⟨hle, hlt, hg⟩
      by_cases he : m = i
      · subst he
        simp [talkEnqueues, hg]
      · have : m ∈ talkEnqueues gen (i + 1) k := (ih (i + 1) m).mpr ⟨by omega, by omega, hg⟩
        simp [talkEnqueues, this]

theorem pairwise_talkEnqueues (gen : ℕ → Bool) :
    ∀ (k i : ℕ), List.Pairwise (· < ·) (talkEnqueues gen i k) := by
  intro k
  induction k with
  | zero =>
    intro i
    simp [talkEnqueues]
  | succ k ih =>
    intro i
    have hrest := ih (i + 1)
    by_cases hg : gen i
    · simp only [talkEnqueues, hg, if_true, List.singleton_append]
      refine List.Pairwise.cons ?_ hrest
      intro m hm
      have := (mem_talkEnqueues gen k (i + 1) m).mp hm
      omega
    · simpa [talkEnqueues, hg] using hrest

theorem talkEnqueues_all_true (gen : ℕ → Bool) :
    ∀ (k i : ℕ), (∀ j, i ≤ j → j < i + k → gen j = true) →
      talkEnqueues gen i k = List.range' i k := by
  intro k
  induction k with
  | zero =>
    intro i _
    rfl
  | succ k ih =>
    intro i h
    have hi : gen i = true := h i (le_refl i) (by omega)
    have hr := ih (i + 1) fun j h1 h2 => h j (by omega) (by omega)
    simp [talkEnqueues, hi, hr, List.range'_succ]

def pipeInv (n : ℕ) (gen : ℕ → Bool) (s : PipeState) : Prop :=
  s.next ≤ n ∧ s.played ++ s.queue = talkEnqueues gen 0 s.next

theorem producerStep_inv (n : ℕ) (gen : ℕ → Bool) (s : PipeState) (h : pipeInv n gen s) :
    pipeInv n gen (producerStep n gen s) := by
  rcases h with ⟨hle, heq⟩
  by_cases hlt : s.next < n
  · have hstep : talkEnqueues gen 0 (s.next + 1) =
        talkEnqueues gen 0 s.next ++ (if gen s.next then [s.next] else []) := by
      have := talkEnqueues_split gen s.next 1 0
      simpa [talkEnqueues] using this
    constructor
    · simp [producerStep, hlt]
      omega
    · by_cases hg : gen s.next
      · simp only [producerStep, hlt, if_true, hg, hstep, if_false]
        rw [← List.append_assoc, heq]
      · simp only [producerStep, hlt, if_true, hg, hstep, if_false]
        simpa using heq
  · simpa [producerStep, hlt] using ⟨hle, heq⟩

theorem consumerStep_inv (n : ℕ) (gen : ℕ → Bool) (s : PipeState) (h : pipeInv n gen s) :
    pipeInv n gen (consumerStep s) := by
  rcases h with ⟨hle, heq⟩
  cases hq : s.queue with
  | nil => simpa [consumerStep, hq] using ⟨hle, by simpa [hq] using heq⟩
  | cons q rest =>
    constructor
    · simpa [consumerStep, hq] using hle
    · simp only [consumerStep, hq]
      rw [← heq, hq]
      simp

theorem runSched_inv (n : ℕ) (gen : ℕ → Bool) :
    ∀ (sched : List Bool) (s : PipeState), pipeInv n gen s → pipeInv n gen (runSched n gen sched s) := by
  intro sched
  induction sched with
  | nil =>
    intro s h
    exact h
  | cons b bs ih =>
    intro s h
    by_cases hb : b
    · simpa [runSched, hb] using ih _ (producerStep_inv n gen s h)
    · simpa [runSched, hb] using ih _ (consumerStep_inv n gen s h)

theorem runSched_inv_init (n : ℕ) (gen : ℕ → Bool) (sched : List Bool) :
    pipeInv n gen (runSched n gen sched initState) :=
  runSched_inv n gen sched initState ⟨Nat.zero_le n, rfl⟩

/-- C1 (amended): under every interleaving of the talk loop and the playback
worker, the consumer observes unit indices in strictly ascending order with
no duplicates, and when the run completes (all `n` chunks processed, queue
drained) with every synthesis succeeding, the observed sequence is exactly
`0, 1, ..., n-1`.  When a synthesis fails its index is missing from the
sequence (see the counterexample), which is the one departure from the
claim as stated. -/
theorem C1_ordered_delivery (n : ℕ) (gen : ℕ → Bool) (sched : List Bool) :
    List.Pairwise (· < ·) (runSched n gen sched initState).played ∧
    ((runSched n gen sched initState).next = n →
      (runSched n gen sched initState).queue = [] →
      (∀ i, i < n → gen i = true) →
      (runSched n gen sched initState).played = List.range n) := by
  rcases runSched_inv_init n gen sched with ⟨hle, heq⟩
  constructor
  · have hp : List.Pairwise (· < ·)
        (talkEnqueues gen 0 (runSched n gen sched initState).next) :=
      pairwise_talkEnqueues gen _ 0
    rw [← heq] at hp
    exact List.Pairwise.sublist (List.sublist_append_left _ _) hp
  · intro hnext hq hall
    rw [hnext, hq] at heq
    simp only [List.append_nil] at heq
    rw [heq, talkEnqueues_all_true gen n 0 (fun j h1 h2 => hall j (by omega))]
    simp [List.range_eq_range']

theorem C1_ordered_delivery_witness :
    (runSched 2 (fun _ => true) [true, true, false, false] initState).next = 2 ∧
    (runSched 2 (fun _ => true) [true, true, false, false] initState).queue = [] ∧
    (runSched 2 (fun _ => true) [true, true, false, false] initState).played = List.range 2 :=
  ⟨by decide, by decide,
    (C1_ordered_delivery 2 (fun _ => true) [true, true, false, false]).2
      (by decide) (by decide) (fun _ _ => rfl)⟩

/-- C1 counterexample: a completed run of 2 units in which unit 0 fails.
The consumer observes `[1]`, not the claimed exact sequence `0, 1`. -/
theorem C1_counterexample :
    (runSched 2 (fun i => decide (i = 1)) [true, true, false, false] initState).next = 2 ∧
    (runSched 2 (fun i => decide (i = 1)) [true, true, false, false] initState).queue = [] ∧
    (runSched 2 (fun i => decide (i = 1)) [true, true, false, false] initState).played = [1] ∧
    ([1] : List ℕ) ≠ List.range 2 :=
  ⟨by decide, by decide, by decide, by decide⟩

/-- C2 (amended): in every completed run, the consumer observes exactly the
indices of the successfully synthesized units, in order — a failure of one
unit neither cancels nor delays any other unit's synthesis or delivery, but
the failed unit is silently omitted: no Failure entry for its index ever
reaches the queue (`process_chunk` enqueues only when `generate_tts`
returned a file). -/
theorem C2_failure_isolated_but_silent (n : ℕ) (gen : ℕ → Bool) (sched : List Bool)
    (hnext : (runSched n gen sched initState).next = n)
    (hq : (runSched n gen sched initState).queue = []) :
    ∀ m, m ∈ (runSched n gen sched initState).played ↔ (m < n ∧ gen m = true) := by
  rcases runSched_inv_init n gen sched with ⟨hle, heq⟩
  rw [hnext, hq] at heq
  simp only [List.append_nil] at heq
  intro m
  rw [heq, mem_talkEnqueues]
  constructor
  · rintro ⟨h1, h2, h3⟩
    exact ⟨by omega, h3⟩
  · rintro ⟨h1, h2⟩
    exact ⟨Nat.zero_le m, by omega, h2⟩

theorem C2_failure_isolated_but_silent_witness :
    (runSched 3 (fun i => !decide (i = 1)) [true, true, true, false, false, false]
        initState).next = 3 ∧
    (runSched 3 (fun i => !decide (i = 1)) [true, true, true, false, false, false]
        initState).queue = [] ∧
    (2 ∈ (runSched 3 (fun i => !decide (i = 1)) [true, true, true, false, false, false]
        initState).played ↔ (2 < 3 ∧ (!decide (2 = 1)) = true)) :=
  ⟨by decide, by decide,
    C2_failure_isolated_but_silent 3 (fun i => !decide (i = 1))
      [true, true, true, false, false, false] (by decide) (by decide) 2⟩

/-- C2 counterexample: a completed run of 3 units in which unit 1 fails.
Units 0 and 2 are delivered in order, but the consumer's observed sequence
`[0, 2]` carries no entry at all for index 1 — the failure is silently
omitted instead of being visible as an in-order Failure result. -/
theorem C2_counterexample :
    (runSched 3 (fun i => !decide (i = 1)) [true, true, true, false, false, false]
        initState).played = [0, 2] ∧
    1 ∉ (runSched 3 (fun i => !decide (i = 1)) [true, true, true, false, false, false]
        initState).played :=
  ⟨by decide, by decide⟩

/-! ### Synthesis concurrency (src/tts_endpoint.py)

`tts_stream` (lines 146-160) creates `asyncio.Semaphore(2)` and then runs
`for index, paragraph in enumerate(paragraphs): async with semaphore: ...
await generate_tts_chunk(...)`.  The loop body is executed by the single
request coroutine: each synthesis call is awaited to completion before the
next iteration begins, so the semaphore never blocks and the execution
trace is strictly `start 0, finish 0, start 1, finish 1, ...`.
(`TTSApplication.talk`, main.py lines 60-64, serializes identically by
awaiting `process_chunk` inside its loop.) -/

inductive SynthEvent where
  | start (i : ℕ)
  | finish (i : ℕ)
deriving DecidableEq

/-- Execution trace of the `tts_stream` loop over `n` paragraphs: the call
for paragraph `i` starts and finishes before the call for paragraph
`i + 1` starts. -/
def tts_stream_trace (n : ℕ) : List SynthEvent :=
  ((List.range n).map fun i => [SynthEvent.start i, SynthEvent.finish i]).flatten

/-- Maximum number of in-flight synthesis calls along a trace, starting
from `cur` calls in flight. -/
def maxInFlight (cur : ℕ) : List SynthEvent → ℕ
  | [] => cur
  | SynthEvent.start _ :: rest => max (cur + 1) (maxInFlight (cur + 1) rest)
  | SynthEvent.finish _ :: rest => maxInFlight (cur - 1) rest

theorem maxInFlight_blocks :
    ∀ (k i : ℕ),
      maxInFlight 0 (((List.range' i k).map
        fun j => [SynthEvent.start j, SynthEvent.finish j]).flatten) ≤ 1 := by
  intro k
  induction k with
  | zero =>
    intro i
    simp [maxInFlight]
  | succ k ih =>
    intro i
    have h := ih (i + 1)
    simpa [List.range'_succ, maxInFlight] using h

/-- C3 evaluated against the code: the `tts_stream` loop keeps at most ONE
synthesis call in flight at any instant, for every number of paragraphs —
in particular, with 2 paragraphs the maximum is exactly 1, never the 2
concurrent calls the claim (and the code's own comment) promises. -/
theorem C3_synthesis_serialized :
    (∀ n, maxInFlight 0 (tts_stream_trace n) ≤ 1) ∧
    maxInFlight 0 (tts_stream_trace 2) = 1 := by
  constructor
  · intro n
    have h := maxInFlight_blocks n 0
    simpa [tts_stream_trace, List.range_eq_range'] using h
  · decide

/-! ### Translator (src/src/translator.py)

`Translator.translate_text` (lines 36-62) splits the input with
`text.splitlines(keepends=True)` (modelled for the newline character the
pipeline uses), packs lines into chunks closing the current chunk when
adding the next line would exceed `max_translate_chars` (default 5000),
drops whitespace-only chunks, and translates each remaining chunk,
appending the ORIGINAL chunk when the provider raises and the empty string
when the provider returns a None text. -/

def splitlinesAux : List Char → List Char → List (List Char)
  | acc, [] => if acc = [] then [] else [acc]
  | acc, c :: rest =>
    if c = '\n' then (acc ++ [c]) :: splitlinesAux [] rest
    else splitlinesAux (acc ++ [c]) rest

/-- Python `text.splitlines(keepends=True)` restricted to `'\n'` line
terminators. -/
def splitlines_keepends (text : List Char) : List (List Char) :=
  splitlinesAux [] text

/-- Chunk-packing loop of `translate_text` (translator.py lines 38-46):
when the current chunk plus the next line would exceed `maxChars`, a
non-empty current chunk is closed; the line is then appended to the (new)
current chunk unconditionally. -/
def buildChunksAux (maxChars : ℕ) : List Char → List (List Char) → List (List Char)
  | current, [] => if current = [] then [] else [current]
  | current, line :: rest =>
    if maxChars < current.length + line.length then
      if current = [] then buildChunksAux maxChars line rest
      else current :: buildChunksAux maxChars line rest
    else buildChunksAux maxChars (current ++ line) rest

/-- Outcome of one call to the translation provider
(`self.translator.translate(chunk, ...)` at translator.py line 52): a
translated text, a response whose `.text` is None, or a raised exception. -/
inductive TrOutcome where
  | ok (t : List Char)
  | none_text
  | err
deriving DecidableEq

/-- Python `c.strip()` truthiness used by the filter at translator.py
line 49. -/
def notBlank (c : List Char) : Bool :=
  !(pyStrip c).isEmpty

/-- Per-chunk translation loop of `translate_text` (translator.py lines
48-60): the provider's text on success, the empty string for a None text,
and the ORIGINAL chunk when the provider raised. -/
def translateChunks (tr : List Char → TrOutcome) : List (List Char) → List (List Char)
  | [] => []
  | c :: rest =>
    (match tr c with
     | TrOutcome.ok t => t
     | TrOutcome.none_text => []
     | TrOutcome.err => c) :: translateChunks tr rest

/-- Embedding of `Translator.translate_text` (translator.py lines 36-62)
for a requested target language: chunk, drop blank chunks, translate each,
join. -/
def translate_text (maxChars : ℕ) (tr : List Char → TrOutcome) (text : List Char) : List Char :=
  (translateChunks tr
    ((buildChunksAux maxChars [] (splitlines_keepends text)).filter notBlank)).flatten

theorem buildChunksAux_budget (maxChars : ℕ) :
    ∀ (lines : List (List Char)) (current : List Char),
      (∀ l ∈ lines, l.length ≤ maxChars) → current.length ≤ maxChars →
      ∀ c ∈ buildChunksAux maxChars current lines, c.length ≤ maxChars := by
  intro lines
  induction lines with
  | nil =>
    intro current _ hcur c hc
    by_cases h : current = []
    · simp [buildChunksAux, h] at hc
    · simp only [buildChunksAux, h, if_false, List.mem_singleton] at hc
      subst hc
      exact hcur
  | cons line rest ih =>
    intro current hlines hcur c hc
    have hline : line.length ≤ maxChars := hlines line (by simp)
    have hrest : ∀ l ∈ rest, l.length ≤ maxChars := fun l hl => hlines l (by simp [hl])
    by_cases hover : maxChars < current.length + line.length
    · have hc2 : c ∈ (if current = [] then buildChunksAux maxChars line rest
          else current :: buildChunksAux maxChars line rest) := by
        simpa only [buildChunksAux, if_pos hover] using hc
      by_cases hemp : current = []
      · rw [if_pos hemp] at hc2
        exact ih line hrest hline c hc2
      · rw [if_neg hemp] at hc2
        rcases List.mem_cons.mp hc2 with rfl | hc3
        · exact hcur
        · exact ih line hrest hline c hc3
    · simp only [buildChunksAux, hover, if_false] at hc
      have hlen : (current ++ line).length ≤ maxChars := by
        simp only [List.length_append]
        omega
      exact ih (current ++ line) hrest hlen c hc

theorem translateChunks_err (tr : List Char → TrOutcome) :
    ∀ (chunks : List (List Char)) (i : ℕ) (c : List Char),
      chunks.get? i = some c → tr c = TrOutcome.err →
      (translateChunks tr chunks).get? i = some c := by
  intro chunks
  induction chunks with
  | nil =>
    intro i c hget
    simp at hget
  | cons x rest ih =>
    intro i c hget htr
    cases i with
    | zero =>
      simp only [List.get?] at hget
      injection hget with hget
      subst hget
      simp [translateChunks, htr]
    | succ i =>
      simp only [List.get?] at hget
      simpa [translateChunks] using ih i c hget htr

theorem translateChunks_ok (tr : List Char → TrOutcome) :
    ∀ (chunks : List (List Char)) (i : ℕ) (c t : List Char),
      chunks.get? i = some c → tr c = TrOutcome.ok t →
      (translateChunks tr chunks).get? i = some t := by
  intro chunks
  induction chunks with
  | nil =>
    intro i c t hget
    simp at hget
  | cons x rest ih =>
    intro i c t hget htr
    cases i with
    | zero =>
      simp only [List.get?] at hget
      injection hget with hget
      subst hget
      simp [translateChunks, htr]
    | succ i =>
      simp only [List.get?] at hget
      simpa [translateChunks] using ih i c t hget htr

/-- C9 (amended): pre-splitting happens along line boundaries and every
sub-chunk respects the character budget PROVIDED no single line exceeds the
budget (the counterexample shows a single over-budget line becomes an
over-budget sub-chunk); and in the translated sequence, a sub-chunk whose
translation raised appears as its original untranslated text while every
successfully translated sub-chunk appears as its translation — one chunk's
failure does not disturb the others. -/
theorem C9_linewise_budget_and_fallback (maxChars : ℕ) (text : List Char)
    (tr : List Char → TrOutcome)
    (hlines : ∀ line ∈ splitlines_keepends text, line.length ≤ maxChars) :
    (∀ c ∈ buildChunksAux maxChars [] (splitlines_keepends text), c.length ≤ maxChars) ∧
    (∀ (i : ℕ) (c : List Char),
      ((buildChunksAux maxChars [] (splitlines_keepends text)).filter notBlank).get? i
          = some c →
        tr c = TrOutcome.err →
        (translateChunks tr
          ((buildChunksAux maxChars [] (splitlines_keepends text)).filter notBlank)).get? i
          = some c) ∧
    (∀ (i : ℕ) (c t : List Char),
      ((buildChunksAux maxChars [] (splitlines_keepends text)).filter notBlank).get? i
          = some c →
        tr c = TrOutcome.ok t →
        (translateChunks tr
          ((buildChunksAux maxChars [] (splitlines_keepends text)).filter notBlank)).get? i
          = some t) := by
  refine ⟨buildChunksAux_budget maxChars (splitlines_keepends text) [] hlines (by simp), ?_, ?_⟩
  · intro i c hget htr
    exact translateChunks_err tr _ i c hget htr
  · intro i c t hget htr
    exact translateChunks_ok tr _ i c t hget htr

theorem C9_linewise_budget_and_fallback_witness :
    (translateChunks (fun _ => TrOutcome.err)
      ((buildChunksAux 5 [] (splitlines_keepends ['a', 'b', '\n', 'c', 'd'])).filter
        notBlank)).get? 0 = some ['a', 'b', '\n', 'c', 'd'] :=
  (C9_linewise_budget_and_fallback 5 ['a', 'b', '\n', 'c', 'd'] (fun _ => TrOutcome.err)
      (by decide)).2.1 0 ['a', 'b', '\n', 'c', 'd'] (by decide) rfl

theorem splitlinesAux_replicate_a :
    ∀ (n : ℕ) (acc : List Char),
      splitlinesAux acc (List.replicate (n + 1) 'a') = [acc ++ List.replicate (n + 1) 'a'] := by
  intro n
  induction n with
  | zero =>
    intro acc
    show splitlinesAux acc ['a'] = [acc ++ ['a']]
    simp [splitlinesAux]
  | succ n ih =>
    intro acc
    have hstep : splitlinesAux acc (List.replicate (n + 1 + 1) 'a')
        = splitlinesAux (acc ++ ['a']) (List.replicate (n + 1) 'a') := by
      rw [List.replicate_succ]
      show (if ('a' = '\n') then (acc ++ ['a']) :: splitlinesAux [] (List.replicate (n + 1) 'a')
        else splitlinesAux (acc ++ ['a']) (List.replicate (n + 1) 'a')) = _
      rw [if_neg (by decide : ¬('a' = '\n'))]
    rw [hstep, ih (acc ++ ['a'])]
    conv_rhs => rw [List.replicate_succ, List.append_cons]

/-- C9 counterexample: a single line of 5001 characters (no newline) is
passed to the chunker with the default budget 5000; it becomes one
sub-chunk of length 5001 — the claim that every sub-chunk sent to the
provider is no longer than the budget fails. -/
theorem C9_counterexample :
    buildChunksAux 5000 [] (splitlines_keepends (List.replicate 5001 'a')) =
      [List.replicate 5001 'a'] ∧
    5000 < (List.replicate 5001 'a').length := by
  have hlen : (List.replicate 5001 'a').length = 5001 := List.length_replicate 5001 'a'
  have hne : ¬(List.replicate 5001 'a' = []) := by
    intro h
    have := congrArg List.length h
    rw [hlen] at this
    simp at this
  constructor
  · have hline : splitlines_keepends (List.replicate 5001 'a') = [List.replicate 5001 'a'] := by
      have h := splitlinesAux_replicate_a 5000 []
      rw [show (5000 + 1 : ℕ) = 5001 from rfl] at h
      show splitlinesAux [] (List.replicate 5001 'a') = [List.replicate 5001 'a']
      rw [h, List.nil_append]
    rw [hline]
    have hcond : 5000 < (([] : List Char)).length + (List.replicate 5001 'a').length := by
      rw [List.length_nil, hlen]
      norm_num
    rw [buildChunksAux, if_pos hcond, if_pos rfl, buildChunksAux, if_neg hne]
  · rw [hlen]
    norm_num

/-! ### Stop endpoint (src/src/web_server.py and src/src/tts_service.py)

`stop_tts_streaming` (web_server.py lines 312-337) calls
`tts_service.stop_streaming(client_id)`.  The `TTSService` class
(tts_service.py lines 23-281) defines the attributes listed below and no
others relevant to lookup — in particular no `stop_streaming` — so the call
raises `AttributeError`, which the surrounding `except` turns into an HTTP
500 response; the `stopped` WebSocket frame (lines 324-328) is never sent
and nothing signals the streaming loop. -/

/-- Attribute surface of a `TTSService` instance: the instance attribute
set in `__init__` plus the methods defined in the class body
(tts_service.py). -/
def ttsServiceAttrs : List String :=
  ["tts_app", "__init__", "_setup_directories", "stream_tts_cli", "stream_tts_web",
   "_split_into_paragraphs", "get_available_voices", "cleanup_old_files", "health_check"]

/-- Python attribute lookup on the `TTSService` instance: `some ()` when the
name exists, `none` for the `AttributeError` case. -/
def tts_service_getattr (name : String) : Option Unit :=
  if name ∈ ttsServiceAttrs then some () else none

inductive StopResponse where
  | stopped (client_id : ℕ)
  | not_streaming (client_id : ℕ)
  | http_error (status : ℕ)
deriving DecidableEq

/-- Embedding of `stop_tts_streaming` (web_server.py lines 312-337): result
of the endpoint together with the list of WebSocket frame types sent to the
client.  The success path (lines 323-331), which would send the "stopped"
frame, requires the `stop_streaming` attribute to resolve; an
`AttributeError` falls to the `except` branch (lines 335-337), which sends
no frame and raises `HTTPException(500)`. -/
def stop_tts_streaming (client_id : ℕ) : StopResponse × List String :=
  match tts_service_getattr "stop_streaming" with
  | some _ => (StopResponse.stopped client_id, ["stopped"])
  | none => (StopResponse.http_error 500, [])

/-- C10 evaluated against the code: `TTSService` has no `stop_streaming`
attribute, so every stop request — client 7 as the concrete failing input,
and every other client id alike — ends in an HTTP 500 with NO "stopped"
frame sent; the streaming pipeline receives no signal at all. -/
theorem C10_stop_endpoint_raises :
    tts_service_getattr "stop_streaming" = none ∧
    stop_tts_streaming 7 = (StopResponse.http_error 500, []) ∧
    (∀ client_id, stop_tts_streaming client_id = (StopResponse.http_error 500, [])) :=
  ⟨by decide, by decide, fun _ => rfl⟩
